import Mathlib

/-!
Verification of the variant path-extraction compute kernel
(parquet-variant-compute, file variant_get.rs, together with the path
descriptor from parquet-variant, file path.rs).

The kernel itself (variant_get, variant_get_rowise, go_to_object_field,
go_to_array_index, get_top_level_primitive, GetOptions) is translated
directly from the source.  The variant binary codec and the columnar
array abstraction are external collaborators of this repository (they
are not part of the kernel sources); they are modelled from the spec,
as documented on each such definition.

The byte-level encoding is modelled by giving every variant value a
size (encSize) and placing each sub-value at a deterministic offset
inside the encoding of its parent (header first, then the children in
order).  Offsets compose exactly the way the byte offsets reported by
the real codec compose, which is the only property the kernel relies
on.
-/

set_option autoImplicit false

namespace PV

mutual

/-- Modelled from the spec: a variant value (spec section 3) is null, a
scalar of the boolean/integer/string family, a list of variant values,
or an object mapping field names to variant values.  The integer family
is represented by the signed 8/32/64 bit constructors that the kernel
source mentions or the spec implies; the carried Lean Int stands for
the machine integer.  Lists and fields are mutual inductives so that
structural recursion and induction stay simple. -/
inductive Variant where
  | nullV : Variant
  | boolV (b : Bool) : Variant
  | int8 (i : Int) : Variant
  | int32 (i : Int) : Variant
  | int64 (i : Int) : Variant
  | strV (s : String) : Variant
  | listV (elems : VariantList) : Variant
  | objV (fields : VariantFields) : Variant

/-- Modelled from the spec: the sequence of elements of a list variant. -/
inductive VariantList where
  | nil : VariantList
  | cons (head : Variant) (tail : VariantList) : VariantList

/-- Modelled from the spec: the (name, value) fields of an object variant. -/
inductive VariantFields where
  | nil : VariantFields
  | cons (name : String) (value : Variant) (tail : VariantFields) : VariantFields

end

mutual

/-- Modelled from the spec: the size of the encoding of a variant value.
Every node costs one header unit; containers additionally contain the
encodings of their children, in order. -/
def encSize : Variant → Nat
  | .nullV => 1
  | .boolV _ => 1
  | .int8 _ => 1
  | .int32 _ => 1
  | .int64 _ => 1
  | .strV _ => 1
  | .listV xs => 1 + encSizeL xs
  | .objV fs => 1 + encSizeF fs

/-- Modelled from the spec: total encoded size of the elements of a list. -/
def encSizeL : VariantList → Nat
  | .nil => 0
  | .cons x xs => encSize x + encSizeL xs

/-- Modelled from the spec: total encoded size of the field values of an object. -/
def encSizeF : VariantFields → Nat
  | .nil => 0
  | .cons _ v fs => encSize v + encSizeF fs

end

mutual

/-- Modelled from the spec: decode the sub-value whose encoding starts at
the given offset inside the encoding of a value.  Offset 0 is the value
itself; for containers, positive offsets fall inside the encoding of
one of the children.  Offsets that do not point at the start of a node
decode nothing, which the column abstraction reports as a structural
decode error (spec section 7). -/
def decodeAt : Variant → Nat → Option Variant
  | v, 0 => some v
  | .listV xs, o + 1 => decodeAtL xs o
  | .objV fs, o + 1 => decodeAtF fs o
  | _, _ + 1 => none

/-- Modelled from the spec: decode at an offset inside the concatenated
encodings of the elements of a list. -/
def decodeAtL : VariantList → Nat → Option Variant
  | .nil, _ => none
  | .cons x xs, o => if o < encSize x then decodeAt x o else decodeAtL xs (o - encSize x)

/-- Modelled from the spec: decode at an offset inside the concatenated
encodings of the field values of an object. -/
def decodeAtF : VariantFields → Nat → Option Variant
  | .nil, _ => none
  | .cons _ v fs, o => if o < encSize v then decodeAt v o else decodeAtF fs (o - encSize v)

end

/-- Modelled from the spec: field_byte_offset (spec section 6).  Returns
the byte offset, relative to the start of the object node, of the value
of the named field, or none when the field is absent. -/
def fieldOffset : VariantFields → String → Option Nat
  | .nil, _ => none
  | .cons n v fs, name =>
    if n = name then some 1 else (fieldOffset fs name).map (fun k => k + encSize v)

/-- Modelled from the spec: the number of elements of a list variant. -/
def lengthL : VariantList → Nat
  | .nil => 0
  | .cons _ xs => 1 + lengthL xs

/-- Modelled from the spec: element_byte_offset (spec section 6).  The
caller must already have checked that the index is within bounds. -/
def elemOffset : VariantList → Nat → Nat
  | .nil, _ => 0
  | .cons _ _, 0 => 1
  | .cons x xs, k + 1 => encSize x + elemOffset xs k

/-- Modelled from the spec: the element of a list at a zero-based index. -/
def elemAt : VariantList → Nat → Option Variant
  | .nil, _ => none
  | .cons x _, 0 => some x
  | .cons _ xs, k + 1 => elemAt xs k

/-- Modelled from the spec: lookup of an object field by name. -/
def lookupField : VariantFields → String → Option Variant
  | .nil, _ => none
  | .cons n v fs, name => if n = name then some v else lookupField fs name

/-- Element of a path, translated from path.rs: access a field by name or
a list element by position. -/
inductive VariantPathElement where
  | field (name : String) : VariantPathElement
  | index (idx : Nat) : VariantPathElement

/-- A qualified path to a potential subfield or index of a variant value,
translated from path.rs (a wrapper around the vector of elements). -/
structure VariantPath where
  elements : List VariantPathElement

/-- The Arrow data type requested for the output, restricted to the shape
the kernel dispatches on: UInt64, or any other type (kept only as its
display name, which the kernel interpolates into its error message). -/
inductive DataType where
  | uint64 : DataType
  | other (name : String) : DataType
deriving DecidableEq

/-- The errors the kernel can surface, translated from the ArrowError
cases used in variant_get.rs. -/
inductive ArrowError where
  | invalidArgument (msg : String) : ArrowError
  | notYetImplemented (msg : String) : ArrowError
deriving DecidableEq

/-- Controls the action of the variant_get kernel, translated from
GetOptions in variant_get.rs.  The as_type field keeps only the data
type of the Arrow Field, which is all the kernel reads; cast_options is
carried but never consulted by either kernel. -/
structure GetOptions where
  path : VariantPath
  as_type : Option DataType
  cast_options : Unit

/-- Modelled from the spec: a variant column (spec section 3), an ordered
sequence of rows, each either null or holding one variant value (the
decoded view of its metadata and value byte pair). -/
structure VariantArray where
  rows : List (Option Variant)

/-- Modelled from the spec: VariantArray.value_at_offset, the per-row
decode used by the vectorized kernel.  Decodes the node starting at the
given byte offset of the value blob of the row; fails on a structurally
invalid offset (spec sections 6 and 7). -/
def value_at_offset (row : Option Variant) (off : Nat) : Except ArrowError Variant :=
  match row with
  | none => .error (.invalidArgument "null row access")
  | some v =>
    match decodeAt v off with
    | some w => .ok w
    | none => .error (.invalidArgument "offset points outside the value blob")

/-- Translated from go_to_object_field in variant_get.rs: one vectorized
traversal step for a Field accessor.  Rows are processed in order; rows
whose flag is cleared are skipped; a row whose current node is not an
object has its flag cleared; otherwise the offset advances by the field
byte offset, with an absent field contributing unwrap_or(Ok(0)), that
is zero.  The three lists (rows, offsets, flags) walk in lockstep. -/
def go_to_object_field (name : String) :
    List (Option Variant) → List Nat → List Bool →
    Except ArrowError (List Nat × List Bool)
  | [], [], [] => .ok ([], [])
  | r :: rs, o :: os, b :: bs =>
    if b then
      match value_at_offset r o with
      | .error e => .error e
      | .ok (.objV fs) =>
        match go_to_object_field name rs os bs with
        | .error e => .error e
        | .ok (os', bs') => .ok ((o + (fieldOffset fs name).getD 0) :: os', true :: bs')
      | .ok _ =>
        match go_to_object_field name rs os bs with
        | .error e => .error e
        | .ok (os', bs') => .ok (o :: os', false :: bs')
    else
      match go_to_object_field name rs os bs with
      | .error e => .error e
      | .ok (os', bs') => .ok (o :: os', false :: bs')
  | _, _, _ => .error (.invalidArgument "state length mismatch")

/-- Translated from go_to_array_index in variant_get.rs: one vectorized
traversal step for an Index accessor.  A row whose current node is not
a list, or whose index is out of bounds, has its flag cleared;
otherwise the offset advances by the element byte offset. -/
def go_to_array_index (index : Nat) :
    List (Option Variant) → List Nat → List Bool →
    Except ArrowError (List Nat × List Bool)
  | [], [], [] => .ok ([], [])
  | r :: rs, o :: os, b :: bs =>
    if b then
      match value_at_offset r o with
      | .error e => .error e
      | .ok (.listV xs) =>
        if index < lengthL xs then
          match go_to_array_index index rs os bs with
          | .error e => .error e
          | .ok (os', bs') => .ok ((o + elemOffset xs index) :: os', true :: bs')
        else
          match go_to_array_index index rs os bs with
          | .error e => .error e
          | .ok (os', bs') => .ok (o :: os', false :: bs')
      | .ok _ =>
        match go_to_array_index index rs os bs with
        | .error e => .error e
        | .ok (os', bs') => .ok (o :: os', false :: bs')
    else
      match go_to_array_index index rs os bs with
      | .error e => .error e
      | .ok (os', bs') => .ok (o :: os', false :: bs')
  | _, _, _ => .error (.invalidArgument "state length mismatch")

/-- Translated from the traversal loop of variant_get in variant_get.rs:
apply the vectorized step for each accessor of the given (already
truncated) path prefix, in order, threading the per-row state. -/
def goPath (rows : List (Option Variant)) :
    List VariantPathElement → List Nat → List Bool →
    Except ArrowError (List Nat × List Bool)
  | [], os, bs => .ok (os, bs)
  | .field name :: ps, os, bs =>
    match go_to_object_field name rows os bs with
    | .error e => .error e
    | .ok (os', bs') => goPath rows ps os' bs'
  | .index k :: ps, os, bs =>
    match go_to_array_index k rows os bs with
    | .error e => .error e
    | .ok (os', bs') => goPath rows ps os' bs'

/-- The conversion performed by the UInt64 arm of both kernels in
variant_get.rs: an Int64 variant is appended as the Rust expression
i as u64, which reinterprets the signed value modulo 2 to the 64; a
variant null appends null; every other variant appends null. -/
def u64_from_variant : Variant → Option Nat
  | .int64 i => some ((i % (2 : Int) ^ 64).toNat)
  | .nullV => none
  | _ => none

/-- Translated from get_top_level_primitive in variant_get.rs: for each
row, append null when its flag is cleared, otherwise decode the node at
the resolved offset of the row and append whatever the extractor
produces. -/
def get_top_level_primitive (extractor : Variant → Option Nat) :
    List (Option Variant) → List Nat → List Bool →
    Except ArrowError (List (Option Nat))
  | [], [], [] => .ok []
  | r :: rs, o :: os, b :: bs =>
    if b then
      match value_at_offset r o with
      | .error e => .error e
      | .ok w =>
        match get_top_level_primitive extractor rs os bs with
        | .error e => .error e
        | .ok out => .ok (extractor w :: out)
    else
      match get_top_level_primitive extractor rs os bs with
      | .error e => .error e
      | .ok out => .ok (none :: out)
  | _, _, _ => .error (.invalidArgument "state length mismatch")

/-- The error message used by both kernels when as_type is absent. -/
def notYetVariantMsg : String := "getting variant from variant is not implemented yet"

/-- The error message used by both kernels for an unimplemented target type. -/
def notYetAsTypeMsg (name : String) : String :=
  "getting variant as " ++ name ++ " is not yet implemented"

/-- Translated from variant_get in variant_get.rs: initialize per-row
offsets to zero and the flags from the column null mask, run the
vectorized traversal over all accessors of the path except the last
(saturating subtraction of one on the path length), then check as_type
and, for UInt64, materialize the output with the Int64 extractor.  The
output column is the list of per-row optional UInt64 values. -/
def variant_get (input : VariantArray) (options : GetOptions) :
    Except ArrowError (List (Option Nat)) :=
  let offsets := List.replicate input.rows.length 0
  let nulls := input.rows.map Option.isSome
  match goPath input.rows
      (options.path.elements.take (options.path.elements.length - 1)) offsets nulls with
  | .error e => .error e
  | .ok (offsets, nulls) =>
    match options.as_type with
    | none => .error (.notYetImplemented notYetVariantMsg)
    | some .uint64 => get_top_level_primitive u64_from_variant input.rows offsets nulls
    | some (.other name) => .error (.notYetImplemented (notYetAsTypeMsg name))

/-- Modelled from the spec: Variant.get_path, the tree navigation used by
the row-wise kernel (spec section 4.3).  Walks the path accessor by
accessor over the fully decoded value, terminating with none at the
first accessor that fails to resolve (wrong node kind, missing field,
or out-of-bounds index). -/
def get_path : Variant → List VariantPathElement → Option Variant
  | v, [] => some v
  | .objV fs, .field name :: ps =>
    match lookupField fs name with
    | some w => get_path w ps
    | none => none
  | .listV xs, .index k :: ps =>
    match elemAt xs k with
    | some w => get_path w ps
    | none => none
  | _, _ :: _ => none

/-- Translated from variant_get_rowise in variant_get.rs: require as_type
(absent means the not-yet-implemented variant-from-variant error),
dispatch on it, and for UInt64 walk every row independently: fully
decode the row, navigate the whole path over the tree, and convert the
result with the same Int64 match as the vectorized kernel.  A null
input row yields a null output row (modelled from the spec, section 3:
accessing a null row for navigation yields null output, never an
error). -/
def variant_get_rowise (input : VariantArray) (options : GetOptions) :
    Except ArrowError (List (Option Nat)) :=
  match options.as_type with
  | none => .error (.notYetImplemented notYetVariantMsg)
  | some .uint64 =>
    .ok (input.rows.map (fun r =>
      match r with
      | none => none
      | some v =>
        match get_path v options.path.elements with
        | some w => u64_from_variant w
        | none => none))
  | some (.other name) => .error (.notYetImplemented (notYetAsTypeMsg name))

/-! ## Basic facts about the modelled encoding -/

theorem encSize_pos (v : Variant) : 1 ≤ encSize v := by
  cases v <;> simp [encSize]

theorem decodeAt_zero (v : Variant) : decodeAt v 0 = some v := by
  cases v <;> rfl

mutual

theorem decode_bound : ∀ (v : Variant) (o : Nat) (w : Variant),
    decodeAt v o = some w → o + encSize w ≤ encSize v
  | v, 0, w, h => by
    have hv : v = w := by simpa [decodeAt] using h
    subst hv; omega
  | .listV xs, o + 1, w, h => by
    have h' : decodeAtL xs o = some w := by simpa [decodeAt] using h
    have hb := decodeL_bound xs o w h'
    simp only [encSize]; omega
  | .objV fs, o + 1, w, h => by
    have h' : decodeAtF fs o = some w := by simpa [decodeAt] using h
    have hb := decodeF_bound fs o w h'
    simp only [encSize]; omega
  | .nullV, _ + 1, _, h => by simp [decodeAt] at h
  | .boolV _, _ + 1, _, h => by simp [decodeAt] at h
  | .int8 _, _ + 1, _, h => by simp [decodeAt] at h
  | .int32 _, _ + 1, _, h => by simp [decodeAt] at h
  | .int64 _, _ + 1, _, h => by simp [decodeAt] at h
  | .strV _, _ + 1, _, h => by simp [decodeAt] at h

theorem decodeL_bound : ∀ (xs : VariantList) (o : Nat) (w : Variant),
    decodeAtL xs o = some w → o + encSize w ≤ encSizeL xs
  | .nil, o, w, h => by simp [decodeAtL] at h
  | .cons x rest, o, w, h => by
    by_cases hc : o < encSize x
    · have h' : decodeAt x o = some w := by simpa [decodeAtL, hc] using h
      have hb := decode_bound x o w h'
      simp only [encSizeL]; omega
    · have h' : decodeAtL rest (o - encSize x) = some w := by
        simpa [decodeAtL, hc] using h
      have hb := decodeL_bound rest (o - encSize x) w h'
      simp only [encSizeL]; omega

theorem decodeF_bound : ∀ (fs : VariantFields) (o : Nat) (w : Variant),
    decodeAtF fs o = some w → o + encSize w ≤ encSizeF fs
  | .nil, o, w, h => by simp [decodeAtF] at h
  | .cons _ v rest, o, w, h => by
    by_cases hc : o < encSize v
    · have h' : decodeAt v o = some w := by simpa [decodeAtF, hc] using h
      have hb := decode_bound v o w h'
      simp only [encSizeF]; omega
    · have h' : decodeAtF rest (o - encSize v) = some w := by
        simpa [decodeAtF, hc] using h
      have hb := decodeF_bound rest (o - encSize v) w h'
      simp only [encSizeF]; omega

end

/-- A decodable offset lies strictly inside the encoding. -/
theorem decode_lt (v : Variant) (o : Nat) (w : Variant) (h : decodeAt v o = some w) :
    o < encSize v := by
  have hb := decode_bound v o w h
  have hp := encSize_pos w
  omega

mutual

theorem decode_comp : ∀ (v : Variant) (o p : Nat) (w u : Variant),
    decodeAt v o = some w → decodeAt w p = some u → decodeAt v (o + p) = some u
  | v, 0, p, w, u, h1, h2 => by
    have hv : v = w := by simpa [decodeAt] using h1
    subst hv; simpa using h2
  | .listV xs, o + 1, p, w, u, h1, h2 => by
    have h' : decodeAtL xs o = some w := by simpa [decodeAt] using h1
    have hc := decodeL_comp xs o p w u h' h2
    have harith : o + 1 + p = o + p + 1 := by omega
    rw [harith]
    simpa [decodeAt] using hc
  | .objV fs, o + 1, p, w, u, h1, h2 => by
    have h' : decodeAtF fs o = some w := by simpa [decodeAt] using h1
    have hc := decodeF_comp fs o p w u h' h2
    have harith : o + 1 + p = o + p + 1 := by omega
    rw [harith]
    simpa [decodeAt] using hc
  | .nullV, _ + 1, _, _, _, h1, _ => by simp [decodeAt] at h1
  | .boolV _, _ + 1, _, _, _, h1, _ => by simp [decodeAt] at h1
  | .int8 _, _ + 1, _, _, _, h1, _ => by simp [decodeAt] at h1
  | .int32 _, _ + 1, _, _, _, h1, _ => by simp [decodeAt] at h1
  | .int64 _, _ + 1, _, _, _, h1, _ => by simp [decodeAt] at h1
  | .strV _, _ + 1, _, _, _, h1, _ => by simp [decodeAt] at h1

theorem decodeL_comp : ∀ (xs : VariantList) (o p : Nat) (w u : Variant),
    decodeAtL xs o = some w → decodeAt w p = some u → decodeAtL xs (o + p) = some u
  | .nil, o, p, w, u, h1, _ => by simp [decodeAtL] at h1
  | .cons x rest, o, p, w, u, h1, h2 => by
    by_cases hc : o < encSize x
    · have h' : decodeAt x o = some w := by simpa [decodeAtL, hc] using h1
      have hb := decode_bound x o w h'
      have hpu : p < encSize w := decode_lt w p u h2
      have hlt : o + p < encSize x := by omega
      have := decode_comp x o p w u h' h2
      simpa [decodeAtL, hlt] using this
    · have h' : decodeAtL rest (o - encSize x) = some w := by
        simpa [decodeAtL, hc] using h1
      have := decodeL_comp rest (o - encSize x) p w u h' h2
      have hge : ¬ o + p < encSize x := by omega
      have harith : o + p - encSize x = o - encSize x + p := by omega
      simpa [decodeAtL, hge, harith] using this

theorem decodeF_comp : ∀ (fs : VariantFields) (o p : Nat) (w u : Variant),
    decodeAtF fs o = some w → decodeAt w p = some u → decodeAtF fs (o + p) = some u
  | .nil, o, p, w, u, h1, _ => by simp [decodeAtF] at h1
  | .cons _ v rest, o, p, w, u, h1, h2 => by
    by_cases hc : o < encSize v
    · have h' : decodeAt v o = some w := by simpa [decodeAtF, hc] using h1
      have hb := decode_bound v o w h'
      have hpu : p < encSize w := decode_lt w p u h2
      have hlt : o + p < encSize v := by omega
      have := decode_comp v o p w u h' h2
      simpa [decodeAtF, hlt] using this
    · have h' : decodeAtF rest (o - encSize v) = some w := by
        simpa [decodeAtF, hc] using h1
      have := decodeF_comp rest (o - encSize v) p w u h' h2
      have hge : ¬ o + p < encSize v := by omega
      have harith : o + p - encSize v = o - encSize v + p := by omega
      simpa [decodeAtF, hge, harith] using this

end

/-- A field offset reported by the codec always points at a decodable
node inside the object. -/
theorem fieldOffset_valid : ∀ (fs : VariantFields) (name : String) (k : Nat),
    fieldOffset fs name = some k →
    1 ≤ k ∧ ∃ u, decodeAtF fs (k - 1) = some u
  | .nil, name, k, h => by simp [fieldOffset] at h
  | .cons n v rest, name, k, h => by
    by_cases hn : n = name
    · have hk : k = 1 := by
        have := h
        simp [fieldOffset, hn] at this
        omega
      subst hk
      refine ⟨le_refl 1, v, ?_⟩
      have hp := encSize_pos v
      simp [decodeAtF, decodeAt]
      omega
    · have h' : ∃ k', fieldOffset rest name = some k' ∧ k = k' + encSize v := by
        simp [fieldOffset, hn] at h
        obtain ⟨k', hk', hke⟩ := h
        exact ⟨k', hk', hke.symm⟩
      obtain ⟨k', hk', hke⟩ := h'
      obtain ⟨hk1, u, hu⟩ := fieldOffset_valid rest name k' hk'
      subst hke
      refine ⟨by omega, u, ?_⟩
      have hge : ¬ k' + encSize v - 1 < encSize v := by omega
      have harith : k' + encSize v - 1 - encSize v = k' - 1 := by omega
      simpa [decodeAtF, hge, harith] using hu

/-- An element offset for an in-bounds index always points at a
decodable node inside the list. -/
theorem elemOffset_valid : ∀ (xs : VariantList) (k : Nat), k < lengthL xs →
    1 ≤ elemOffset xs k ∧ ∃ u, decodeAtL xs (elemOffset xs k - 1) = some u
  | .nil, k, h => by simp [lengthL] at h
  | .cons x rest, 0, _ => by
    refine ⟨by simp [elemOffset], x, ?_⟩
    have hp := encSize_pos x
    simp [elemOffset, decodeAtL, decodeAt]
    omega
  | .cons x rest, k + 1, h => by
    have hk : k < lengthL rest := by
      simp [lengthL] at h
      omega
    obtain ⟨h1, u, hu⟩ := elemOffset_valid rest k hk
    refine ⟨?_, u, ?_⟩
    · simp [elemOffset]
      have := encSize_pos x
      omega
    · have hge : ¬ encSize x + elemOffset rest k - 1 < encSize x := by omega
      have harith : encSize x + elemOffset rest k - 1 - encSize x = elemOffset rest k - 1 := by
        omega
      simpa [elemOffset, decodeAtL, hge, harith] using hu

/-! ## The traversal state invariant

A per-row state is sound when the three lists walk in lockstep and
every row whose flag is still set is a non-null row whose offset
decodes to some node.  The initial state of variant_get is sound and
both traversal steps preserve soundness, so the vectorized kernel
never hits a structural decode error on a well-formed column. -/

inductive StOK : List (Option Variant) → List Nat → List Bool → Prop where
  | nil : StOK [] [] []
  | dead (r : Option Variant) (o : Nat) {rs : List (Option Variant)} {os : List Nat}
      {bs : List Bool} (h : StOK rs os bs) : StOK (r :: rs) (o :: os) (false :: bs)
  | alive (v : Variant) (o : Nat) (w : Variant) (hd : decodeAt v o = some w)
      {rs : List (Option Variant)} {os : List Nat} {bs : List Bool}
      (h : StOK rs os bs) : StOK (some v :: rs) (o :: os) (true :: bs)

theorem stok_init : ∀ (rows : List (Option Variant)),
    StOK rows (List.replicate rows.length 0) (rows.map Option.isSome)
  | [] => .nil
  | none :: rs => .dead none 0 (stok_init rs)
  | some v :: rs => .alive v 0 v (decodeAt_zero v) (stok_init rs)

theorem goField_ok (name : String) :
    ∀ {rs : List (Option Variant)} {os : List Nat} {bs : List Bool}, StOK rs os bs →
    ∃ os' bs', go_to_object_field name rs os bs = .ok (os', bs') ∧ StOK rs os' bs' ∧
      List.Forall₂ (fun b' b => b' = true → b = true) bs' bs := by
  intro rs os bs h
  induction h with
  | nil => exact ⟨[], [], rfl, .nil, .nil⟩
  | dead r o h ih =>
    obtain ⟨os', bs', heq, hok, hmono⟩ := ih
    exact ⟨o :: os', false :: bs', by simp [go_to_object_field, heq], .dead r o hok,
      .cons (by simp) hmono⟩
  | alive v o w hd h ih =>
    obtain ⟨os', bs', heq, hok, hmono⟩ := ih
    cases w with
    | objV fs =>
      cases hfo : fieldOffset fs name with
      | none =>
        refine ⟨o :: os', true :: bs', ?_, .alive v o (.objV fs) hd hok, .cons (by simp) hmono⟩
        simp [go_to_object_field, value_at_offset, hd, heq, hfo]
      | some k =>
        obtain ⟨hk1, u, hu⟩ := fieldOffset_valid fs name k hfo
        have hobj : decodeAt (Variant.objV fs) k = some u := by
          have harith : k = (k - 1) + 1 := by omega
          rw [harith]
          simpa [decodeAt] using hu
        have hcomp := decode_comp v o k (.objV fs) u hd hobj
        refine ⟨(o + k) :: os', true :: bs', ?_, .alive v (o + k) u hcomp hok,
          .cons (by simp) hmono⟩
        simp [go_to_object_field, value_at_offset, hd, heq, hfo]
    | nullV =>
      exact ⟨o :: os', false :: bs',
        by simp [go_to_object_field, value_at_offset, hd, heq], .dead _ o hok,
        .cons (by simp) hmono⟩
    | boolV b =>
      exact ⟨o :: os', false :: bs',
        by simp [go_to_object_field, value_at_offset, hd, heq], .dead _ o hok,
        .cons (by simp) hmono⟩
    | int8 i =>
      exact ⟨o :: os', false :: bs',
        by simp [go_to_object_field, value_at_offset, hd, heq], .dead _ o hok,
        .cons (by simp) hmono⟩
    | int32 i =>
      exact ⟨o :: os', false :: bs',
        by simp [go_to_object_field, value_at_offset, hd, heq], .dead _ o hok,
        .cons (by simp) hmono⟩
    | int64 i =>
      exact ⟨o :: os', false :: bs',
        by simp [go_to_object_field, value_at_offset, hd, heq], .dead _ o hok,
        .cons (by simp) hmono⟩
    | strV s =>
      exact ⟨o :: os', false :: bs',
        by simp [go_to_object_field, value_at_offset, hd, heq], .dead _ o hok,
        .cons (by simp) hmono⟩
    | listV xs =>
      exact ⟨o :: os', false :: bs',
        by simp [go_to_object_field, value_at_offset, hd, heq], .dead _ o hok,
        .cons (by simp) hmono⟩

theorem goIndex_ok (index : Nat) :
    ∀ {rs : List (Option Variant)} {os : List Nat} {bs : List Bool}, StOK rs os bs →
    ∃ os' bs', go_to_array_index index rs os bs = .ok (os', bs') ∧ StOK rs os' bs' ∧
      List.Forall₂ (fun b' b => b' = true → b = true) bs' bs := by
  intro rs os bs h
  induction h with
  | nil => exact ⟨[], [], rfl, .nil, .nil⟩
  | dead r o h ih =>
    obtain ⟨os', bs', heq, hok, hmono⟩ := ih
    exact ⟨o :: os', false :: bs', by simp [go_to_array_index, heq], .dead r o hok,
      .cons (by simp) hmono⟩
  | alive v o w hd h ih =>
    obtain ⟨os', bs', heq, hok, hmono⟩ := ih
    cases w with
    | listV xs =>
      by_cases hin : index < lengthL xs
      · obtain ⟨h1, u, hu⟩ := elemOffset_valid xs index hin
        have hlst : decodeAt (Variant.listV xs) (elemOffset xs index) = some u := by
          have harith : elemOffset xs index = (elemOffset xs index - 1) + 1 := by omega
          rw [harith]
          simpa [decodeAt] using hu
        have hcomp := decode_comp v o (elemOffset xs index) (.listV xs) u hd hlst
        refine ⟨(o + elemOffset xs index) :: os', true :: bs', ?_,
          .alive v (o + elemOffset xs index) u hcomp hok, .cons (by simp) hmono⟩
        simp [go_to_array_index, value_at_offset, hd, heq, hin]
      · refine ⟨o :: os', false :: bs', ?_, .dead _ o hok, .cons (by simp) hmono⟩
        simp [go_to_array_index, value_at_offset, hd, heq, hin]
    | nullV =>
      exact ⟨o :: os', false :: bs',
        by simp [go_to_array_index, value_at_offset, hd, heq], .dead _ o hok,
        .cons (by simp) hmono⟩
    | boolV b =>
      exact ⟨o :: os', false :: bs',
        by simp [go_to_array_index, value_at_offset, hd, heq], .dead _ o hok,
        .cons (by simp) hmono⟩
    | int8 i =>
      exact ⟨o :: os', false :: bs',
        by simp [go_to_array_index, value_at_offset, hd, heq], .dead _ o hok,
        .cons (by simp) hmono⟩
    | int32 i =>
      exact ⟨o :: os', false :: bs',
        by simp [go_to_array_index, value_at_offset, hd, heq], .dead _ o hok,
        .cons (by simp) hmono⟩
    | int64 i =>
      exact ⟨o :: os', false :: bs',
        by simp [go_to_array_index, value_at_offset, hd, heq], .dead _ o hok,
        .cons (by simp) hmono⟩
    | strV s =>
      exact ⟨o :: os', false :: bs',
        by simp [go_to_array_index, value_at_offset, hd, heq], .dead _ o hok,
        .cons (by simp) hmono⟩
    | objV fs =>
      exact ⟨o :: os', false :: bs',
        by simp [go_to_array_index, value_at_offset, hd, heq], .dead _ o hok,
        .cons (by simp) hmono⟩

theorem forall2_chain {α β γ : Type} {R : α → β → Prop} {S : β → γ → Prop}
    {T : α → γ → Prop} (hc : ∀ a b c, R a b → S b c → T a c) :
    ∀ {xs : List α} {ys : List β} {zs : List γ},
    List.Forall₂ R xs ys → List.Forall₂ S ys zs → List.Forall₂ T xs zs := by
  intro xs ys zs h1 h2
  induction h1 generalizing zs with
  | nil => cases h2; exact .nil
  | cons hr h ih =>
    cases h2 with
    | cons hs h2' => exact .cons (hc _ _ _ hr hs) (ih h2')

theorem goPath_ok (rows : List (Option Variant)) :
    ∀ (ps : List VariantPathElement) (os : List Nat) (bs : List Bool), StOK rows os bs →
    ∃ os' bs', goPath rows ps os bs = .ok (os', bs') ∧ StOK rows os' bs' ∧
      List.Forall₂ (fun b' b => b' = true → b = true) bs' bs := by
  intro ps
  induction ps with
  | nil =>
    intro os bs h
    refine ⟨os, bs, rfl, h, ?_⟩
    rw [List.forall₂_same]
    intro x _ hx
    exact hx
  | cons p ps ih =>
    intro os bs h
    cases p with
    | field name =>
      obtain ⟨os1, bs1, heq1, hok1, hm1⟩ := goField_ok name h
      obtain ⟨os2, bs2, heq2, hok2, hm2⟩ := ih os1 bs1 hok1
      refine ⟨os2, bs2, by simp [goPath, heq1, heq2], hok2, ?_⟩
      exact forall2_chain (fun a b c hab hbc ha => hbc (hab ha)) hm2 hm1
    | index k =>
      obtain ⟨os1, bs1, heq1, hok1, hm1⟩ := goIndex_ok k h
      obtain ⟨os2, bs2, heq2, hok2, hm2⟩ := ih os1 bs1 hok1
      refine ⟨os2, bs2, by simp [goPath, heq1, heq2], hok2, ?_⟩
      exact forall2_chain (fun a b c hab hbc ha => hbc (hab ha)) hm2 hm1

theorem gtlp_ok (ext : Variant → Option Nat) :
    ∀ {rs : List (Option Variant)} {os : List Nat} {bs : List Bool}, StOK rs os bs →
    ∃ out, get_top_level_primitive ext rs os bs = .ok out ∧
      List.Forall₂ (fun (x : Option Nat) b => x.isSome = true → b = true) out bs := by
  intro rs os bs h
  induction h with
  | nil => exact ⟨[], rfl, .nil⟩
  | dead r o h ih =>
    obtain ⟨out, heq, hm⟩ := ih
    exact ⟨none :: out, by simp [get_top_level_primitive, heq], .cons (by simp) hm⟩
  | alive v o w hd h ih =>
    obtain ⟨out, heq, hm⟩ := ih
    exact ⟨ext w :: out,
      by simp [get_top_level_primitive, value_at_offset, hd, heq], .cons (by simp) hm⟩

theorem init_flags_le (rows : List (Option Variant)) :
    List.Forall₂ (fun b (r : Option Variant) => b = true → r.isSome = true)
      (rows.map Option.isSome) rows := by
  induction rows with
  | nil => exact .nil
  | cons r rs ih => exact .cons (fun hr => hr) ih

/-- The number of null entries of a column, as a list of optional values. -/
def countNone {α : Type} (l : List (Option α)) : Nat :=
  l.countP (fun x => x.isNone)

theorem countNone_le {α β : Type} :
    ∀ {xs : List (Option α)} {ys : List (Option β)},
    List.Forall₂ (fun x y => x.isSome = true → y.isSome = true) xs ys →
    countNone ys ≤ countNone xs := by
  intro xs ys h
  induction h with
  | nil => exact le_refl 0
  | @cons x y xs' ys' hr h ih =>
    have ih' : List.countP (fun x => x.isNone) ys' ≤ List.countP (fun x => x.isNone) xs' := by
      simpa [countNone] using ih
    cases x with
    | none =>
      cases y with
      | none =>
        simp only [countNone, List.countP_cons]
        simp only [Option.isNone_none, if_pos]
        omega
      | some b =>
        simp only [countNone, List.countP_cons]
        simp
        omega
    | some a =>
      cases y with
      | none => simp at hr
      | some b =>
        simp only [countNone, List.countP_cons]
        simp
        omega

/-- With an always-successful traversal from a sound initial state, the
vectorized kernel with a UInt64 target always succeeds. -/
theorem variant_get_uint64_ok (input : VariantArray) (p : VariantPath) (c : Unit) :
    ∃ out, variant_get input ⟨p, some .uint64, c⟩ = .ok out := by
  obtain ⟨os', bs', heq, hok, hm⟩ := goPath_ok input.rows
    (p.elements.take (p.elements.length - 1)) _ _ (stok_init input.rows)
  obtain ⟨out, hout, hm2⟩ := gtlp_ok u64_from_variant hok
  exact ⟨out, by simp [variant_get, heq, hout]⟩

/-! ## Example columns used by the concrete evaluations -/

/-- A one-row column whose value is the list of Int64 values 7 and 8. -/
def exListC1 : Variant := .listV (.cons (.int64 7) (.cons (.int64 8) .nil))

/-- A one-row column value: the list of Int64 values 10, 20, 30 from the
spec, Scenario E. -/
def exListC2 : Variant :=
  .listV (.cons (.int64 10) (.cons (.int64 20) (.cons (.int64 30) .nil)))

/-- An object holding only the field named y with Int64 value 7. -/
def exObjC4 : Variant := .objV (.cons "y" (.int64 7) .nil)

/-- An object holding only the field named b with Int64 value 42. -/
def exObjC7 : Variant := .objV (.cons "b" (.int64 42) .nil)

/-- Options requesting the empty path with target type UInt64. -/
def optsEmptyU64 : GetOptions := ⟨⟨[]⟩, some .uint64, ()⟩

/-! ## The claims -/

/-- Claim C1 is refuted by the code: on a one-row column holding the list
with Int64 elements 7 and 8, with path Index 0 and target type UInt64,
the vectorized kernel returns a null row (its traversal loop drops the
last accessor and its terminal step never applies it, so it decodes the
list itself, which the UInt64 extractor turns into null), while the
row-wise kernel applies the whole path and returns 7.  The two kernels
therefore do not produce identical results row for row. -/
theorem C1_strategies_disagree :
    variant_get ⟨[some exListC1]⟩ ⟨⟨[.index 0]⟩, some .uint64, ()⟩ = .ok [none] ∧
    variant_get_rowise ⟨[some exListC1]⟩ ⟨⟨[.index 0]⟩, some .uint64, ()⟩ = .ok [some 7] :=
  ⟨rfl, rfl⟩

/-- Claim C2 is refuted by the code: on the Scenario E input of the spec
(one row holding the list 10, 20, 30, path Index 1, target UInt64) the
vectorized kernel returns a one-row column holding null, not 20: the
traversal loop iterates only over the first K minus 1 accessors and the
terminal materialization never applies the remaining last accessor. -/
theorem C2_last_accessor_not_applied :
    variant_get ⟨[some exListC2]⟩ ⟨⟨[.index 1]⟩, some .uint64, ()⟩ = .ok [none] := rfl

/-- Claim C3 as stated is false at a concrete input: with an absent
target type the kernel does not return a variant column, it fails with
a not-yet-implemented error. -/
theorem C3_counterexample :
    variant_get ⟨[some (.int64 1234)]⟩ ⟨⟨[]⟩, none, ()⟩ =
      .error (.notYetImplemented "getting variant from variant is not implemented yet") := rfl

/-- Claim C3, amended: for every input column and every path, calling
either kernel with an absent target type returns the not-yet-implemented
error about getting variant from variant; absence of a target type is an
error, not a request for variant output. -/
theorem C3_amended_absent_as_type_errors (input : VariantArray) (p : VariantPath) (c : Unit) :
    variant_get input ⟨p, none, c⟩ = .error (.notYetImplemented notYetVariantMsg) ∧
    variant_get_rowise input ⟨p, none, c⟩ = .error (.notYetImplemented notYetVariantMsg) := by
  constructor
  · obtain ⟨os', bs', heq, hok, hm⟩ := goPath_ok input.rows
      (p.elements.take (p.elements.length - 1)) _ _ (stok_init input.rows)
    simp [variant_get, heq]
  · rfl

/-- Claim C4 is refuted by the code: during a Field traversal step, a row
whose current value is an object lacking the named field does not become
null.  On a one-row state over the object holding only field y, the
step for field x returns the row still alive with its offset unchanged,
because field_offset(name) absent is folded to unwrap_or(Ok(0)).  The
claim (and the spec) say the alive flag must be cleared. -/
theorem C4_absent_field_row_stays_alive :
    go_to_object_field "x" [some exObjC4] [0] [true] = .ok ([0], [true]) := rfl

/-- Supporting fact for the configuration-error analysis: on a
well-formed column the vectorized kernel with an unimplemented target
type does eventually return the descriptive not-yet-implemented failure
naming that type, and never partial output, for every input column and
every path (the traversal that runs first cannot fail on a well-formed
column). -/
theorem variant_get_other_type_errors (input : VariantArray) (p : VariantPath) (c : Unit)
    (name : String) :
    variant_get input ⟨p, some (.other name), c⟩ =
      .error (.notYetImplemented (notYetAsTypeMsg name)) := by
  obtain ⟨os', bs', heq, hok, hm⟩ := goPath_ok input.rows
    (p.elements.take (p.elements.length - 1)) _ _ (stok_init input.rows)
  simp [variant_get, heq]

/-- Claim C5 is contradicted by the placement of the check in the code:
the as_type dispatch of variant_get sits after the traversal loop, so a
call with an unimplemented target type and a multi-accessor path first
performs per-row traversal and decode work and only then reports the
configuration error.  Evaluated at a one-row column holding Int64 5
with path Field a, Field b and target type Utf8: the call returns the
not-yet-implemented error, and the traversal step it runs beforehand
(the step for Field a over the same single-row state the kernel builds,
offsets zero and flags from the null mask) decodes the row and clears
its alive flag, which is exactly the per-row work the claim says never
happens. -/
theorem C5_check_after_traversal_eval :
    variant_get ⟨[some (.int64 5)]⟩
      ⟨⟨[.field "a", .field "b"]⟩, some (.other "Utf8"), ()⟩ =
      .error (.notYetImplemented (notYetAsTypeMsg "Utf8")) ∧
    go_to_object_field "a" [some (.int64 5)] [0] [true] = .ok ([0], [false]) :=
  ⟨rfl, rfl⟩

/-- Claim C6 as stated is false at a concrete input: a one-row column
holding the Int32 value 5 with target type UInt64 yields null in both
kernels, not the value 5, because the conversion match only handles the
Int64 constructor. -/
theorem C6_counterexample :
    variant_get ⟨[some (.int32 5)]⟩ optsEmptyU64 = .ok [none] ∧
    variant_get_rowise ⟨[some (.int32 5)]⟩ optsEmptyU64 = .ok [none] :=
  ⟨rfl, rfl⟩

/-- Claim C6, amended: with target type UInt64, only Int64 terminal
values are converted; Int32 and Int8 terminal values are appended as
null by both kernels whatever value they hold, while every Int64 value
converts (reinterpreted modulo 2 to the 64). -/
theorem C6_amended_only_int64_converts (i : Int) :
    variant_get ⟨[some (.int32 i)]⟩ optsEmptyU64 = .ok [none] ∧
    variant_get_rowise ⟨[some (.int32 i)]⟩ optsEmptyU64 = .ok [none] ∧
    variant_get ⟨[some (.int8 i)]⟩ optsEmptyU64 = .ok [none] ∧
    variant_get_rowise ⟨[some (.int8 i)]⟩ optsEmptyU64 = .ok [none] ∧
    variant_get ⟨[some (.int64 i)]⟩ optsEmptyU64 = .ok [some ((i % (2 : Int) ^ 64).toNat)] ∧
    variant_get_rowise ⟨[some (.int64 i)]⟩ optsEmptyU64 =
      .ok [some ((i % (2 : Int) ^ 64).toNat)] :=
  ⟨rfl, rfl, rfl, rfl, rfl, rfl⟩

/-- Claim C7 is refuted by the code: on a one-row column holding the
object with single field b equal to 42, with path Field a, Field b,
Field c and target UInt64, the output row is the non-null value 42,
although the path misses at the very first accessor (field a is absent),
so under the claimed null-mask characterization the row would have to
be null.  The absent-field step leaves the row alive at an unchanged
offset, after which the Field b step resolves against the same object
and the terminal decode finds the Int64 value 42. -/
theorem C7_null_mask_violated_eval :
    variant_get ⟨[some exObjC7]⟩
      ⟨⟨[.field "a", .field "b", .field "c"]⟩, some .uint64, ()⟩ = .ok [some 42] := rfl

/-- Claim C8: whenever the vectorized kernel returns successfully on a
non-empty path, the output has at least as many null rows as the input:
traversal steps only clear alive flags and the terminal materialization
maps dead rows to null and never resurrects one. -/
theorem C8_null_count_monotone (input : VariantArray) (opts : GetOptions)
    (out : List (Option Nat)) (_hne : opts.path.elements ≠ [])
    (h : variant_get input opts = .ok out) :
    countNone input.rows ≤ countNone out := by
  obtain ⟨os', bs', heq, hok, hm⟩ := goPath_ok input.rows
    (opts.path.elements.take (opts.path.elements.length - 1)) _ _ (stok_init input.rows)
  simp only [variant_get, heq] at h
  cases hat : opts.as_type with
  | none => rw [hat] at h; simp at h
  | some dt =>
    cases dt with
    | other name => rw [hat] at h; simp at h
    | uint64 =>
      rw [hat] at h
      obtain ⟨out0, hout, hm2⟩ := gtlp_ok u64_from_variant hok
      rw [hout] at h
      have hoo : out0 = out := by simpa using h
      subst hoo
      have chain1 := forall2_chain
        (fun (a : Option Nat) (b c : Bool) hab hbc ha => hbc (hab ha)) hm2 hm
      have chain2 := forall2_chain
        (fun (a : Option Nat) (b : Bool) (c : Option Variant) hab hbc ha => hbc (hab ha))
        chain1 (init_flags_le input.rows)
      exact countNone_le chain2

/-- Witness for claim C8 at a concrete input: a one-row non-null column
holding an empty object, path Field a, target UInt64; the kernel
returns one null row, and zero input nulls is at most one output
null. -/
theorem C8_null_count_monotone_witness :
    countNone ([some (Variant.objV .nil)] : List (Option Variant)) ≤
      countNone ([none] : List (Option Nat)) :=
  C8_null_count_monotone ⟨[some (.objV .nil)]⟩ ⟨⟨[.field "a"]⟩, some .uint64, ()⟩ [none]
    (by simp) rfl

/-- Claim C9: with an Int64 terminal value and target UInt64, both
kernels append the bit-pattern reinterpretation of the signed value,
the value modulo 2 to the 64, with no negativity check; in particular
the Int64 value minus 1 yields 2 to the 64 minus 1, not null and not an
error. -/
theorem C9_signed_reinterpret :
    (∀ i : Int, variant_get ⟨[some (.int64 i)]⟩ optsEmptyU64 =
      .ok [some ((i % (2 : Int) ^ 64).toNat)]) ∧
    variant_get ⟨[some (.int64 (-1))]⟩ optsEmptyU64 = .ok [some (2 ^ 64 - 1)] ∧
    variant_get_rowise ⟨[some (.int64 (-1))]⟩ optsEmptyU64 = .ok [some (2 ^ 64 - 1)] :=
  ⟨fun _ => rfl, rfl, rfl⟩

/-- Claim C10: for every input column and every single-accessor path, the
vectorized kernel with target UInt64 returns exactly what it returns on
the empty path: the traversal loop takes only the first K minus 1
accessors and the terminal step never applies the last one, so a lone
accessor is never applied anywhere. -/
theorem C10_single_accessor_ignored (input : VariantArray) (a : VariantPathElement)
    (c c' : Unit) :
    variant_get input ⟨⟨[a]⟩, some .uint64, c⟩ =
      variant_get input ⟨⟨[]⟩, some .uint64, c'⟩ := rfl

end PV
